import Mathlib

/-!
Shallow embedding of the incremental speaker-role attribution engine of the
Speech2StructuredDoc repository.

The embedded code lives in two near-duplicate Python sources:
  * `src/speaker_identification.py`      — the "module" `SpeakerAnalyzer`,
  * `scripts/test_dynamic_speaker_identification.py` — the "script"
    `SpeakerAnalyzer`, which additionally carries the heuristic fallback
    classifier.

Strings are modelled as `List Char`.  Python dictionaries (which preserve
insertion order) are modelled as association lists; Python floats appearing in
the data flow are carried as their JSON lexemes, so no floating-point
arithmetic is modelled (none is performed by the embedded code either).
-/

set_option maxHeartbeats 1000000
set_option synthInstance.maxHeartbeats 400000

abbrev Str := List Char

/-- Left brace character, written via its code point. -/
def lbrace : Char := Char.ofNat 123

/-- Right brace character, written via its code point. -/
def rbrace : Char := Char.ofNat 125

/-- `isPre n h` is true when `n` is a prefix of `h`; models Python
`str.startswith` and is the building block for substring search. -/
def isPre : Str → Str → Bool
  | [], _ => true
  | _ :: _, [] => false
  | a :: as, b :: bs => if a = b then isPre as bs else false

/-- `containsSub hay needle` models the Python substring test
`needle in hay`. -/
def containsSub (hay needle : Str) : Bool :=
  hay.tails.any (fun t => isPre needle t)

/-- Python whitespace stripped by `str.strip()`. -/
def isPySpace (c : Char) : Bool :=
  c == ' ' || c == '\t' || c == '\n' || c == '\r' || c == Char.ofNat 11 || c == Char.ofNat 12

/-- Models Python `str.strip()`. -/
def pyStrip (l : Str) : Str :=
  ((l.dropWhile isPySpace).reverse.dropWhile isPySpace).reverse

/-- Lower-casing of one character.  Models Python `str.lower` on the ASCII and
Latin-1 ranges, which covers every character the embedded code compares
(the indicator vocabulary is ASCII plus `ö`/`å`, already lower case). -/
def pyLower (c : Char) : Char :=
  if 65 ≤ c.toNat ∧ c.toNat ≤ 90 then Char.ofNat (c.toNat + 32)
  else if 192 ≤ c.toNat ∧ c.toNat ≤ 222 ∧ c.toNat ≠ 215 then Char.ofNat (c.toNat + 32)
  else c

/-- Models Python `str.lower`. -/
def lowerStr (l : Str) : Str := l.map pyLower

/-- Everything after the first occurrence of `sep`, up to the end of the
string; `none` when `sep` does not occur.  `(afterFirst sep h).getD []`
combined with `beforeFirst` below models `h.split(sep)[1]`. -/
def afterFirst (sep : Str) : Str → Option Str
  | [] => none
  | c :: t => if isPre sep (c :: t) then some ((c :: t).drop sep.length) else afterFirst sep t

/-- Everything before the first occurrence of `sep` (the whole string when
`sep` does not occur); models `h.split(sep)[0]`. -/
def beforeFirst (sep : Str) : Str → Str
  | [] => []
  | c :: t => if isPre sep (c :: t) then [] else c :: beforeFirst sep t

/-- Models `re.search(r'({.*})', completion, re.DOTALL)`: with a greedy `.*`,
the match, when it exists, runs from the first `{` of the string to the last
`}` occurring after it. -/
def braceSpan (completion : Str) : Option Str :=
  let tail := completion.dropWhile (fun c => !(c == lbrace))
  match tail with
  | [] => none
  | _ :: _ =>
    if tail.any (fun c => c == rbrace) then
      some ((tail.reverse.dropWhile (fun c => !(c == rbrace))).reverse)
    else none

/-- JSON values as produced by `json.loads`.  Numbers are carried as their
source lexemes: the embedded code never computes with them, it only stores
and forwards them. -/
inductive JsonVal where
  | jnull : JsonVal
  | jbool : Bool → JsonVal
  | jnum : Str → JsonVal
  | jstr : Str → JsonVal
  | jarr : List JsonVal → JsonVal
  | jobj : List (Str × JsonVal) → JsonVal
deriving Repr

/-- Python dict assignment `d[k] = v`: replaces the value in place when the
key exists (keeping its position), appends the pair otherwise. -/
def setKey {α : Type} : List (Str × α) → Str → α → List (Str × α)
  | [], k, v => [(k, v)]
  | p :: t, k, v => if p.1 == k then (k, v) :: t else p :: setKey t k v

/-- First value stored under key `k`; models Python `d.get(k)` /
`k in d` + `d[k]`. -/
def lookupKey {α : Type} : List (Str × α) → Str → Option α
  | [], _ => none
  | p :: t, k => if p.1 == k then some p.2 else lookupKey t k

/-- Bool-valued key-membership test, models Python `k in d`. -/
def hasKey {α : Type} (l : List (Str × α)) (k : Str) : Bool :=
  l.any (fun p => p.1 == k)

/-- JSON whitespace accepted between tokens by `json.loads`. -/
def isJsonWs (c : Char) : Bool :=
  c == ' ' || c == '\t' || c == '\n' || c == '\r'

/-- Parses the body of a JSON string after the opening quote, returning the
decoded content and the input following the closing quote.  The common escape
sequences are decoded; `\uXXXX` escapes are not modelled (no claim exercises
them). -/
def parseStringBody : Str → Option (Str × Str)
  | [] => none
  | c :: t =>
    if c = '"' then some ([], t)
    else if c = '\\' then
      match t with
      | [] => none
      | e :: t2 =>
        let d? : Option Char :=
          if e = '"' then some '"'
          else if e = '\\' then some '\\'
          else if e = '/' then some '/'
          else if e = 'n' then some '\n'
          else if e = 't' then some '\t'
          else if e = 'r' then some '\r'
          else if e = 'b' then some (Char.ofNat 8)
          else if e = 'f' then some (Char.ofNat 12)
          else none
        match d? with
        | some d => (parseStringBody t2).map (fun p => (d :: p.1, p.2))
        | none => none
    else (parseStringBody t).map (fun p => (c :: p.1, p.2))

/-- Integer part of a JSON number (no leading zeros), returning its lexeme. -/
def parseIntDigits (l : Str) : Option (Str × Str) :=
  match l with
  | [] => none
  | c :: t =>
    if c = '0' then some ([c], t)
    else if c.isDigit then some (c :: t.takeWhile Char.isDigit, t.dropWhile Char.isDigit)
    else none

/-- Optional fractional part of a JSON number. -/
def parseFracOpt (l : Str) : Option (Str × Str) :=
  match l with
  | [] => some ([], [])
  | c :: t =>
    if c = '.' then
      match t with
      | [] => none
      | d :: _ =>
        if d.isDigit then some (c :: t.takeWhile Char.isDigit, t.dropWhile Char.isDigit)
        else none
    else some ([], c :: t)

/-- Optional exponent part of a JSON number. -/
def parseExpOpt (l : Str) : Option (Str × Str) :=
  match l with
  | [] => some ([], [])
  | c :: t =>
    if c = 'e' ∨ c = 'E' then
      let st : Str × Str :=
        match t with
        | [] => ([], [])
        | s :: t' => if s = '+' ∨ s = '-' then ([s], t') else ([], s :: t')
      match st.2 with
      | [] => none
      | d :: _ =>
        if d.isDigit then
          some (c :: (st.1 ++ st.2.takeWhile Char.isDigit), st.2.dropWhile Char.isDigit)
        else none
    else some ([], c :: t)

/-- A JSON number lexeme: `-? int frac? exp?`. -/
def parseNumberLex (l : Str) : Option (Str × Str) :=
  let nl : Str × Str :=
    match l with
    | [] => ([], [])
    | c :: t => if c = '-' then ([c], t) else ([], c :: t)
  (parseIntDigits nl.2).bind fun ip =>
    (parseFracOpt ip.2).bind fun fp =>
      (parseExpOpt fp.2).map fun ep => (nl.1 ++ ip.1 ++ fp.1 ++ ep.1, ep.2)

mutual

/-- Fuel-indexed recursive-descent parser for one JSON value; models the
grammar accepted by `json.loads`. -/
def parseValue : Nat → Str → Option (JsonVal × Str)
  | 0, _ => none
  | fuel + 1, l =>
    let l1 := l.dropWhile isJsonWs
    match l1 with
    | [] => none
    | c :: t =>
      if c = '"' then (parseStringBody t).map (fun p => (JsonVal.jstr p.1, p.2))
      else if c = lbrace then parseObjectRest fuel t
      else if c = '[' then parseArrayRest fuel t
      else if isPre ("true".toList) l1 then some (JsonVal.jbool true, l1.drop 4)
      else if isPre ("false".toList) l1 then some (JsonVal.jbool false, l1.drop 5)
      else if isPre ("null".toList) l1 then some (JsonVal.jnull, l1.drop 4)
      else (parseNumberLex l1).map (fun p => (JsonVal.jnum p.1, p.2))

/-- Parses the remainder of a JSON object after its opening brace. -/
def parseObjectRest : Nat → Str → Option (JsonVal × Str)
  | 0, _ => none
  | fuel + 1, l =>
    let l1 := l.dropWhile isJsonWs
    match l1 with
    | [] => none
    | c :: _ => if c = rbrace then some (JsonVal.jobj [], l1.drop 1) else parseMembers fuel l1 []

/-- Parses the members of a non-empty JSON object.  Duplicate keys resolve
last-wins, as in `json.loads`. -/
def parseMembers : Nat → Str → List (Str × JsonVal) → Option (JsonVal × Str)
  | 0, _, _ => none
  | fuel + 1, l, acc =>
    let l1 := l.dropWhile isJsonWs
    match l1 with
    | [] => none
    | c :: t =>
      if c = '"' then
        match parseStringBody t with
        | none => none
        | some (key, r1) =>
          match r1.dropWhile isJsonWs with
          | [] => none
          | c2 :: r2 =>
            if c2 = ':' then
              match parseValue fuel r2 with
              | none => none
              | some (v, r3) =>
                let acc2 := setKey acc key v
                match r3.dropWhile isJsonWs with
                | [] => none
                | c3 :: r4 =>
                  if c3 = ',' then parseMembers fuel r4 acc2
                  else if c3 = rbrace then some (JsonVal.jobj acc2, r4)
                  else none
            else none
      else none

/-- Parses the remainder of a JSON array after its opening bracket. -/
def parseArrayRest : Nat → Str → Option (JsonVal × Str)
  | 0, _ => none
  | fuel + 1, l =>
    let l1 := l.dropWhile isJsonWs
    match l1 with
    | [] => none
    | c :: _ => if c = ']' then some (JsonVal.jarr [], l1.drop 1) else parseElems fuel l1 []

/-- Parses the elements of a non-empty JSON array. -/
def parseElems : Nat → Str → List JsonVal → Option (JsonVal × Str)
  | 0, _, _ => none
  | fuel + 1, l, acc =>
    match parseValue fuel l with
    | none => none
    | some (v, r1) =>
      match r1.dropWhile isJsonWs with
      | [] => none
      | c :: r2 =>
        if c = ',' then parseElems fuel r2 (acc ++ [v])
        else if c = ']' then some (JsonVal.jarr (acc ++ [v]), r2)
        else none

end

/-- Models `json.loads`: parses one JSON value and requires only whitespace to
follow it.  The fuel bound is generous enough for any input of the given
length. -/
def jsonParse (l : Str) : Option JsonVal :=
  match parseValue (2 * l.length + 4) l with
  | some (v, rest) => if (rest.dropWhile isJsonWs).isEmpty then some v else none
  | none => none

/-- The `"```json"` marker searched for by the module analyzer. -/
def fenceJson : Str := "```json".toList

/-- The plain code-fence marker. -/
def fence3 : Str := "```".toList

/-- The fence-stripping step of `src/speaker_identification.py`
(`analyze_with_llm`, lines 172-178): cut out the first fenced block when fence
markers are present, then strip whitespace. -/
def extractContent (completion : Str) : Str :=
  if containsSub completion fenceJson then
    pyStrip (beforeFirst fence3 ((afterFirst fenceJson completion).getD []))
  else if containsSub completion fence3 then
    pyStrip (beforeFirst fence3 ((afterFirst fence3 completion).getD []))
  else pyStrip completion

/-- The full response-parsing pipeline of the module analyzer
(`src/speaker_identification.py`, lines 170-215): fence extraction plus
`json.loads`, then on failure the greedy brace-span regex over the raw
completion, parsed again. -/
def parseCompletionModule (completion : Str) : Option JsonVal :=
  match jsonParse (extractContent completion) with
  | some r => some r
  | none =>
    match braceSpan completion with
    | some js => jsonParse js
    | none => none

/-- The response-parsing pipeline of the script analyzer
(`scripts/test_dynamic_speaker_identification.py`, lines 347-370): direct
`json.loads`, then on failure the greedy brace-span regex, parsed again. -/
def parseCompletionScript (completion : Str) : Option JsonVal :=
  match jsonParse completion with
  | some r => some r
  | none =>
    match braceSpan completion with
    | some js => jsonParse js
    | none => none

/-- The Swedish advisor-indicator vocabulary of the script analyzer's
heuristic fallback (`scripts/test_dynamic_speaker_identification.py`,
lines 389-390 and 417-418). -/
def advisorIndicators : List Str :=
  ["portfölj".toList, "investering".toList, "tillgång".toList, "fond".toList,
   "aktie".toList, "obligation".toList, "avkastning".toList, "risk".toList,
   "marknad".toList, "rekommenderar".toList, "strategi".toList]

/-- The heuristic score of one speaker, exactly as the nested `for` loops
compute it: one point per (utterance, indicator) pair with a case-insensitive
substring match. -/
def advisorScore (texts : List Str) : Nat :=
  texts.foldl (fun score text =>
    advisorIndicators.foldl (fun sc ind =>
      if containsSub (lowerStr text) (lowerStr ind) then sc + 1 else sc) score) 0

/-- Rationale stored by the heuristic on the advisor branch. -/
def advisorReasonText : Str :=
  "This speaker uses financial terminology typical of an advisor.".toList

/-- Rationale stored by the heuristic on the client branch. -/
def clientReasonText : Str :=
  "This speaker does not use enough financial terminology to be classified as an advisor.".toList

/-- Role assigned by the heuristic fallback (`advisor_score >= 2` branch). -/
def heuristicRole (texts : List Str) : JsonVal :=
  if 2 ≤ advisorScore texts then JsonVal.jstr ("advisor".toList)
  else JsonVal.jstr ("client".toList)

/-- Confidence assigned by the heuristic fallback. -/
def heuristicConfidence (texts : List Str) : JsonVal :=
  if 2 ≤ advisorScore texts then JsonVal.jnum ("0.7".toList)
  else JsonVal.jnum ("0.6".toList)

/-- Rationale assigned by the heuristic fallback. -/
def heuristicReasoning (texts : List Str) : JsonVal :=
  if 2 ≤ advisorScore texts then JsonVal.jstr advisorReasonText
  else JsonVal.jstr clientReasonText

/-- State of one `SpeakerAnalyzer` instance.  The dictionaries of the Python
object are association lists (Python dictionaries preserve insertion order);
`known_speakers` is a set, modelled as a duplicate-free list.  `oracleCalls`
is instrumentation: it counts how many times `get_completion_func` has been
applied, so that claims about when the oracle is invoked become statable. -/
structure AState where
  utterances : List (Str × List Str)
  roles : List (Str × JsonVal)
  confidence : List (Str × JsonVal)
  reasoning : List (Str × JsonVal)
  knownSpeakers : List Str
  lastUtteranceCount : List (Str × Nat)
  minUtterancesPerSpeaker : Nat
  oracleCalls : Nat
deriving Repr

/-- The state built by `SpeakerAnalyzer.__init__`. -/
def initState : AState :=
  { utterances := [], roles := [], confidence := [], reasoning := [],
    knownSpeakers := [], lastUtteranceCount := [],
    minUtterancesPerSpeaker := 2, oracleCalls := 0 }

/-- The evidence-store append of `add_utterance`:
`if speaker_id not in self.utterances: self.utterances[speaker_id] = []` followed
by `self.utterances[speaker_id].append(text)`. -/
def appendVal : List (Str × List Str) → Str → Str → List (Str × List Str)
  | [], k, t => [(k, [t])]
  | p :: r, k, t => if p.1 == k then (p.1, p.2 ++ [t]) :: r else p :: appendVal r k t

/-- `SpeakerAnalyzer.add_utterance` (identical in both sources): records the
utterance under the speaker's key and reports whether the speaker is new. -/
def addUtterance (s : AState) (speakerId : Str) (text : Str) : AState × Bool :=
  let isNewSpeaker := !(s.knownSpeakers.any (fun k => k == speakerId))
  let known :=
    if s.knownSpeakers.any (fun k => k == speakerId) then s.knownSpeakers
    else s.knownSpeakers ++ [speakerId]
  ({ s with knownSpeakers := known,
            utterances := appendVal s.utterances speakerId text }, isNewSpeaker)

/-- `SpeakerAnalyzer.get_utterance_count`. -/
def getUtteranceCount (s : AState) (speakerId : Str) : Nat :=
  ((lookupKey s.utterances speakerId).getD []).length

/-- A sequence of `add_utterance` calls, each given as (speaker_id, text). -/
def runAdds (s : AState) (calls : List (Str × Str)) : AState :=
  calls.foldl (fun st c => (addUtterance st c.1 c.2).1) s

/-- Python `dict.update(kvs)`: assigns every pair of `kvs` in order. -/
def dictUpdate {α : Type} (d : List (Str × α)) (kvs : List (Str × α)) : List (Str × α) :=
  kvs.foldl (fun acc p => setKey acc p.1 p.2) d

/-- Key `"roles"` of the oracle response. -/
def rolesKey : Str := "roles".toList

/-- Key `"confidence"` of the oracle response. -/
def confidenceKey : Str := "confidence".toList

/-- Key `"reasoning"` of the oracle response. -/
def reasoningKey : Str := "reasoning".toList

/-- How `dict.update` (CPython's `PyDict_MergeFromSeq2`) treats one element
of a non-mapping update argument: the element is coerced to a sequence, must
have length 2, and its two items become key and value.
`some (some (k, v))` is an inserted string-keyed pair: a two-element array
with a string key, a two-character string (each character a one-character
string), or a two-entry object (its two keys, in insertion order).
`some none` is a successful insertion under a number/boolean/null key: such
a key can never equal a speaker id and is outside this string-keyed
dictionary model, so the insertion is dropped.
`none` raises: an array/object key is unhashable (`TypeError`), any other
length-mismatch is a `ValueError`, and a number/boolean/null element cannot
be coerced to a sequence (`TypeError`). -/
def pairItem : JsonVal → Option (Option (Str × JsonVal))
  | JsonVal.jarr [JsonVal.jstr k, v] => some (some (k, v))
  | JsonVal.jarr [JsonVal.jnum _, _] => some none
  | JsonVal.jarr [JsonVal.jbool _, _] => some none
  | JsonVal.jarr [JsonVal.jnull, _] => some none
  | JsonVal.jstr [k1, v1] => some (some ([k1], JsonVal.jstr [v1]))
  | JsonVal.jobj [f1, f2] => some (some (f1.1, JsonVal.jstr f2.1))
  | _ => none

/-- `target.update(elems)` for a JSON array: elements are merged left to
right; a raising element (`Except.error`) keeps the insertions already
made, as CPython's sequential merge does. -/
def updPairs (cur : List (Str × JsonVal)) :
    List JsonVal → Except (List (Str × JsonVal)) (List (Str × JsonVal))
  | [] => Except.ok cur
  | e :: rest =>
    match pairItem e with
    | none => Except.error cur
    | some none => updPairs cur rest
    | some (some (k, v)) => updPairs (setKey cur k v) rest

/-- One `if key in result: target.update(result[key])` step of the merge.
`Except.error` models a raised exception and carries the dictionary with the
updates applied before the raise.  For a dict `result`, `key in result` is a
key test and `update` accepts a mapping, an iterable of key/value pairs, or
an empty string/array (a no-op); other field values raise.  For a list
`result`, `key in result` is element membership and a hit raises at the
subsequent indexing; for a string it is a substring test, likewise raising
on a hit; for numbers, booleans and null the membership test itself
raises. -/
def updField (cur : List (Str × JsonVal)) (result : JsonVal) (key : Str) :
    Except (List (Str × JsonVal)) (List (Str × JsonVal)) :=
  match result with
  | JsonVal.jobj fields =>
    match lookupKey fields key with
    | none => Except.ok cur
    | some (JsonVal.jobj kvs) => Except.ok (dictUpdate cur kvs)
    | some (JsonVal.jarr elems) => updPairs cur elems
    | some (JsonVal.jstr []) => Except.ok cur
    | some _ => Except.error cur
  | JsonVal.jarr elems =>
    if elems.any (fun e =>
        match e with
        | JsonVal.jstr s => s == key
        | _ => false) then Except.error cur
    else Except.ok cur
  | JsonVal.jstr s => if containsSub s key then Except.error cur else Except.ok cur
  | _ => Except.error cur

/-- The merge step of `analyze_with_llm`: update `roles`, `confidence` and
`reasoning` in this order from the parsed result.  `Except.error` carries the
state at the point where Python would raise (earlier updates kept). -/
def mergeInto (s : AState) (result : JsonVal) : Except AState AState :=
  match updField s.roles result rolesKey with
  | Except.error r => Except.error { s with roles := r }
  | Except.ok r =>
    match updField s.confidence result confidenceKey with
    | Except.error c => Except.error { s with roles := r, confidence := c }
    | Except.ok c =>
      match updField s.reasoning result reasoningKey with
      | Except.error g =>
        Except.error { s with roles := r, confidence := c, reasoning := g }
      | Except.ok g => Except.ok { s with roles := r, confidence := c, reasoning := g }

/-- One iteration of the best-guess fallback loop: store the heuristic
classification of speaker `p.1` with utterances `p.2`. -/
def heurStep (st : AState) (p : Str × List Str) : AState :=
  { st with
    roles := setKey st.roles p.1 (heuristicRole p.2),
    confidence := setKey st.confidence p.1 (heuristicConfidence p.2),
    reasoning := setKey st.reasoning p.1 (heuristicReasoning p.2) }

/-- The best-guess fallback of the script analyzer (lines 384-407 and
412-435): re-classify every speaker of the evidence store with the keyword
heuristic, assigning `roles`, `confidence` and `reasoning` per speaker. -/
def applyHeuristic (s : AState) : AState :=
  s.utterances.foldl heurStep s

/-- `SpeakerAnalyzer.analyze_with_llm` of the script analyzer
(`scripts/test_dynamic_speaker_identification.py`, lines 266-436).  `oracle`
is the outcome of the `get_completion_func` call: `Except.error ()` models a
raised exception, `Except.ok completion` the returned text.  On any parse or
call failure the heuristic fallback runs and the pass still returns `True`;
a `TypeError` raised inside the merge lands in an enclosing handler that also
runs the fallback. -/
def analyzeWithLlm (s : AState) (oracle : Except Unit Str) : AState × Bool :=
  if s.utterances.isEmpty then (s, false)
  else
    let s1 : AState := { s with oracleCalls := s.oracleCalls + 1 }
    match oracle with
    | Except.error _ => (applyHeuristic s1, true)
    | Except.ok completion =>
      match parseCompletionScript completion with
      | some result =>
        match mergeInto s1 result with
        | Except.ok s2 => (s2, true)
        | Except.error s2 => (applyHeuristic s2, true)
      | none => (applyHeuristic s1, true)

/-- `SpeakerAnalyzer.analyze_with_llm` of the module analyzer
(`src/speaker_identification.py`, lines 96-219).  No fallback exists there:
an oracle exception returns `False`, a response failing both parse attempts
returns `False` (Python returns `None`, which callers treat as falsy), and a
merge `TypeError` propagates to the outer handler returning `False`. -/
def analyzeWithLlmModule (s : AState) (oracle : Except Unit Str) : AState × Bool :=
  if s.utterances.isEmpty then (s, false)
  else
    let s1 : AState := { s with oracleCalls := s.oracleCalls + 1 }
    match oracle with
    | Except.error _ => (s1, false)
    | Except.ok completion =>
      match jsonParse (extractContent completion) with
      | some result =>
        match mergeInto s1 result with
        | Except.ok s2 => (s2, true)
        | Except.error s2 => (s2, false)
      | none =>
        match braceSpan completion with
        | some js =>
          match jsonParse js with
          | some result =>
            match mergeInto s1 result with
            | Except.ok s2 => (s2, true)
            | Except.error s2 => (s2, false)
          | none => (s1, false)
        | none => (s1, false)

/-- One iteration of `analysis_thread_func`
(`src/speaker_identification.py`, lines 237-261): compute current counts,
trigger when some speaker has both new utterances and at least the minimum,
update the watermark dictionary, then run one classification pass. -/
def scanStep (s : AState) (oracle : Except Unit Str) : AState × Bool :=
  let currentCounts := s.utterances.map (fun p => (p.1, p.2.length))
  let shouldAnalyze := currentCounts.any (fun p =>
    decide ((lookupKey s.lastUtteranceCount p.1).getD 0 < p.2)
      && decide (s.minUtterancesPerSpeaker ≤ p.2))
  let s1 := if shouldAnalyze then { s with lastUtteranceCount := currentCounts } else s
  if shouldAnalyze then ((analyzeWithLlmModule s1 oracle).1, true) else (s1, false)

/-- The analyzer-relevant tail of the transcription callback
`handle_final_result` (`src/speaker_identification.py`, lines 555-560): add
the utterance and, when the speaker is new, run `analyze_with_llm`
synchronously inside the callback. -/
def handleFinalResult (s : AState) (speakerId : Str) (text : Str)
    (oracle : Except Unit Str) : AState :=
  let r := addUtterance s speakerId text
  if r.2 then (analyzeWithLlmModule r.1 oracle).1 else r.1

/-- Lock / oracle events, used to express where the oracle call sits relative
to the `with self.analysis_lock` block. -/
inductive LockEv where
  | acq : LockEv
  | rel : LockEv
  | oracleInvoke : LockEv
deriving DecidableEq, Repr

/-- The lock/oracle event trace of one `analyze_with_llm` call (either
analyzer: the whole body, including the `get_completion_func` call, runs
inside `with self.analysis_lock`; the early empty-store return happens under
the lock and before the oracle call). -/
def analyzeLockTrace (s : AState) : List LockEv :=
  if s.utterances.isEmpty then [LockEv.acq, LockEv.rel]
  else [LockEv.acq, LockEv.oracleInvoke, LockEv.rel]

/-- Number of oracle invocations in a trace that occur while the lock is
held. -/
def countOracleUnderLock (t : List LockEv) : Nat :=
  (t.foldl (fun (p : Nat × Nat) e =>
    match e with
    | LockEv.acq => (p.1 + 1, p.2)
    | LockEv.rel => (p.1 - 1, p.2)
    | LockEv.oracleInvoke => (p.1, if 0 < p.1 then p.2 + 1 else p.2)) (0, 0)).2

/-- Total number of oracle invocations in a trace. -/
def countOracleInvokes (t : List LockEv) : Nat :=
  (t.filter (fun e => e == LockEv.oracleInvoke)).length


/-- Modelled from the spec (§4.3): the score the specification describes —
the number of DISTINCT indicator terms matched, case-insensitively as
substrings, across all of the speaker's utterances.  Stated for comparison
with `advisorScore`, the score the code computes. -/
def distinctIndicatorCount (texts : List Str) : Nat :=
  (advisorIndicators.filter
    (fun ind => texts.any (fun text => containsSub (lowerStr text) (lowerStr ind)))).length

/-- The string-keyed pairs a `dict.update` with a JSON-array argument can
insert: every pair-shaped element's key/value, whether or not a later element
raises (an over-approximation of what actually lands in the dictionary,
which is what a soundness hypothesis needs). -/
def pairsOf : List JsonVal → List (Str × JsonVal)
  | [] => []
  | e :: rest =>
    match pairItem e with
    | some (some (k, v)) => (k, v) :: pairsOf rest
    | _ => pairsOf rest

/-- The string-keyed per-speaker pairs the merge step can insert from the
field stored under `key` in an oracle result: the field's entries when it is
an object, the pair-shaped elements when it is an array, and nothing
otherwise (all other shapes raise or no-op before inserting anything). -/
def respField (r : JsonVal) (key : Str) : List (Str × JsonVal) :=
  match r with
  | JsonVal.jobj fields =>
    match lookupKey fields key with
    | some (JsonVal.jobj kvs) => kvs
    | some (JsonVal.jarr elems) => pairsOf elems
    | _ => []
  | _ => []

/-- Backtick character, written via its code point. -/
def btick : Char := Char.ofNat 96

/-- The markdown fence wrapping of a payload used in the wrapper-invariance
claim: the payload inside a ```json ... ``` code block. -/
def fenceWrap (P : Str) : Str := "```json\n".toList ++ P ++ "\n```".toList

/-! Association-list lemmas. -/

theorem hasKey_cons {α : Type} (a : Str × α) (t : List (Str × α)) (k : Str) :
    hasKey (a :: t) k = ((a.1 == k) || hasKey t k) := by
  simp [hasKey]

theorem lookupKey_setKey_self {α : Type} (l : List (Str × α)) (k : Str) (v : α) :
    lookupKey (setKey l k v) k = some v := by
  induction l with
  | nil => simp [setKey, lookupKey]
  | cons a t ih =>
    by_cases h : a.1 = k
    · simp [setKey, lookupKey, h]
    · simp [setKey, lookupKey, h, ih]

theorem lookupKey_setKey_ne {α : Type} (l : List (Str × α)) {k k' : Str} (v : α)
    (hne : k' ≠ k) : lookupKey (setKey l k v) k' = lookupKey l k' := by
  induction l with
  | nil => simp [setKey, lookupKey, Ne.symm hne]
  | cons a t ih =>
    by_cases h : a.1 = k
    · subst h
      simp [setKey, lookupKey, Ne.symm hne]
    · by_cases h2 : a.1 = k'
      · simp [setKey, lookupKey, h, h2, hne]
      · simp [setKey, lookupKey, h, h2, ih]

theorem hasKey_setKey {α : Type} (l : List (Str × α)) (k k' : Str) (v : α) :
    hasKey (setKey l k v) k' = (hasKey l k' || (k == k')) := by
  induction l with
  | nil => simp [setKey, hasKey, Bool.or_comm]
  | cons a t ih =>
    by_cases h : a.1 = k
    · subst h
      by_cases h2 : a.1 = k'
      · simp [setKey, hasKey, h2]
      · simp [setKey, hasKey, h2]
    · rw [setKey]
      rw [if_neg (by simp [h]), hasKey_cons, hasKey_cons, ih, Bool.or_assoc]

theorem hasKey_dictUpdate {α : Type} (d kvs : List (Str × α)) (k : Str) :
    hasKey (dictUpdate d kvs) k = (hasKey d k || hasKey kvs k) := by
  induction kvs generalizing d with
  | nil => simp [dictUpdate, hasKey]
  | cons a t ih =>
    show hasKey (dictUpdate (setKey d a.1 a.2) t) k = _
    rw [ih, hasKey_setKey, hasKey_cons, Bool.or_assoc]

theorem hasKey_iff_lookup {α : Type} (l : List (Str × α)) (k : Str) :
    hasKey l k = true ↔ ∃ v, lookupKey l k = some v := by
  induction l with
  | nil => simp [hasKey, lookupKey]
  | cons a t ih =>
    by_cases h : a.1 = k
    · simp [hasKey, lookupKey, h]
    · rw [hasKey_cons]
      have hb : (a.1 == k) = false := by simp [h]
      rw [hb, Bool.false_or]
      have hl : lookupKey (a :: t) k = lookupKey t k := by simp [lookupKey, h]
      rw [hl]
      exact ih

theorem lookup_eq_none_of_hasKey_false {α : Type} {l : List (Str × α)} {k : Str}
    (h : hasKey l k = false) : lookupKey l k = none := by
  rcases hl : lookupKey l k with _ | v
  · rfl
  · exact absurd ((hasKey_iff_lookup l k).2 ⟨v, hl⟩) (by simp [h])

theorem lookupKey_nodup_mem {α : Type} {l : List (Str × α)} {k : Str} {v : α}
    (hnd : (l.map Prod.fst).Nodup) (hm : (k, v) ∈ l) : lookupKey l k = some v := by
  induction l with
  | nil => simp at hm
  | cons a t ih =>
    rcases List.mem_cons.1 hm with h | h
    · simp [lookupKey, ← h]
    · have hk : a.1 ≠ k := by
        intro he
        have hmem : k ∈ t.map Prod.fst := List.mem_map.2 ⟨(k, v), h, rfl⟩
        rw [List.map_cons, List.nodup_cons] at hnd
        exact hnd.1 (he ▸ hmem)
      rw [lookupKey, if_neg (by simp [hk])]
      rw [List.map_cons, List.nodup_cons] at hnd
      exact ih hnd.2 h

theorem lookupKey_appendVal_self (l : List (Str × List Str)) (k : Str) (t : Str) :
    lookupKey (appendVal l k t) k = some ((lookupKey l k).getD [] ++ [t]) := by
  induction l with
  | nil => simp [appendVal, lookupKey]
  | cons a r ih =>
    by_cases h : a.1 = k
    · simp [appendVal, lookupKey, h]
    · simp [appendVal, lookupKey, h, ih]

theorem lookupKey_appendVal_ne (l : List (Str × List Str)) {k k' : Str} (t : Str)
    (hne : k' ≠ k) : lookupKey (appendVal l k t) k' = lookupKey l k' := by
  induction l with
  | nil => simp [appendVal, lookupKey, Ne.symm hne]
  | cons a r ih =>
    by_cases h : a.1 = k
    · subst h
      simp [appendVal, lookupKey, Ne.symm hne]
    · by_cases h2 : a.1 = k'
      · simp [appendVal, lookupKey, h, h2, hne]
      · simp [appendVal, lookupKey, h, h2, ih]

theorem hasKey_appendVal (l : List (Str × List Str)) (k k' : Str) (t : Str) :
    hasKey (appendVal l k t) k' = (hasKey l k' || (k == k')) := by
  induction l with
  | nil => simp [appendVal, hasKey, Bool.or_comm]
  | cons a r ih =>
    by_cases h : a.1 = k
    · subst h
      by_cases h2 : a.1 = k'
      · simp [appendVal, hasKey, h2]
      · simp [appendVal, hasKey, h2]
    · rw [appendVal]
      rw [if_neg (by simp [h]), hasKey_cons, hasKey_cons, ih, Bool.or_assoc]

/-! `add_utterance` and evidence-store lemmas. -/

theorem addUtterance_roles (s : AState) (spk t : Str) :
    (addUtterance s spk t).1.roles = s.roles := rfl

theorem addUtterance_oracleCalls (s : AState) (spk t : Str) :
    (addUtterance s spk t).1.oracleCalls = s.oracleCalls := rfl

theorem addUtterance_utterances (s : AState) (spk t : Str) :
    (addUtterance s spk t).1.utterances = appendVal s.utterances spk t := rfl

theorem addUtterance_snd (s : AState) (spk t : Str) :
    (addUtterance s spk t).2 = !(s.knownSpeakers.any (fun k => k == spk)) := rfl

theorem addUtterance_known_mem (s : AState) (spk t spk' : Str) :
    (spk' ∈ (addUtterance s spk t).1.knownSpeakers) ↔
      (spk' ∈ s.knownSpeakers ∨ spk' = spk) := by
  show (spk' ∈ (if s.knownSpeakers.any (fun k => k == spk) then s.knownSpeakers
      else s.knownSpeakers ++ [spk])) ↔ _
  by_cases h : s.knownSpeakers.any (fun k => k == spk)
  · rw [if_pos h]
    constructor
    · exact Or.inl
    · rintro (hm | he)
      · exact hm
      · subst he
        rw [List.any_eq_true] at h
        rcases h with ⟨x, hx, hxe⟩
        rw [beq_iff_eq] at hxe
        exact hxe ▸ hx
  · rw [if_neg h]
    simp [List.mem_append]

theorem getUtteranceCount_addUtterance (s : AState) (spk t spk' : Str) :
    getUtteranceCount (addUtterance s spk t).1 spk'
      = getUtteranceCount s spk' + (if spk' = spk then 1 else 0) := by
  by_cases h : spk' = spk
  · subst h
    rw [getUtteranceCount, addUtterance_utterances, lookupKey_appendVal_self]
    simp [getUtteranceCount]
  · rw [getUtteranceCount, addUtterance_utterances, lookupKey_appendVal_ne _ _ h]
    simp [getUtteranceCount, h]

theorem runAdds_nil (s : AState) : runAdds s [] = s := rfl

theorem runAdds_cons (s : AState) (c : Str × Str) (cs : List (Str × Str)) :
    runAdds s (c :: cs) = runAdds (addUtterance s c.1 c.2).1 cs := rfl

theorem getUtteranceCount_runAdds (s : AState) (calls : List (Str × Str)) (spk : Str) :
    getUtteranceCount (runAdds s calls) spk
      = getUtteranceCount s spk + (calls.filter (fun c => c.1 == spk)).length := by
  induction calls generalizing s with
  | nil => simp [runAdds]
  | cons c cs ih =>
    rw [runAdds_cons, ih, getUtteranceCount_addUtterance]
    by_cases h : c.1 = spk
    · simp [List.filter_cons, h]
      omega
    · simp [List.filter_cons, h, Ne.symm h]

theorem known_runAdds_mem (s : AState) (calls : List (Str × Str)) (spk : Str) :
    (spk ∈ (runAdds s calls).knownSpeakers) ↔
      (spk ∈ s.knownSpeakers ∨ ∃ c ∈ calls, c.1 = spk) := by
  induction calls generalizing s with
  | nil => simp [runAdds]
  | cons c cs ih =>
    rw [runAdds_cons, ih, addUtterance_known_mem]
    simp only [List.mem_cons]
    constructor
    · rintro ((hm | he) | ⟨d, hd, hde⟩)
      · exact Or.inl hm
      · exact Or.inr ⟨c, Or.inl rfl, he.symm⟩
      · exact Or.inr ⟨d, Or.inr hd, hde⟩
    · rintro (hm | ⟨d, hd | hd, hde⟩)
      · exact Or.inl (Or.inl hm)
      · exact Or.inl (Or.inr (by rw [hd] at hde; exact hde.symm))
      · exact Or.inr ⟨d, hd, hde⟩

theorem runAdds_roles (s : AState) (calls : List (Str × Str)) :
    (runAdds s calls).roles = s.roles := by
  induction calls generalizing s with
  | nil => rfl
  | cons c cs ih => rw [runAdds_cons, ih, addUtterance_roles]

theorem runAdds_oracleCalls (s : AState) (calls : List (Str × Str)) :
    (runAdds s calls).oracleCalls = s.oracleCalls := by
  induction calls generalizing s with
  | nil => rfl
  | cons c cs ih => rw [runAdds_cons, ih, addUtterance_oracleCalls]

/-! Heuristic-classifier lemmas. -/

theorem foldl_count_eq {β : Type} (l : List β) (p : β → Bool) (acc : Nat) :
    l.foldl (fun sc x => if p x then sc + 1 else sc) acc = acc + (l.filter p).length := by
  induction l generalizing acc with
  | nil => simp
  | cons a t ih =>
    by_cases h : p a
    · rw [List.foldl_cons, ih, List.filter_cons, if_pos h, if_pos h]
      simp only [List.length_cons]
      omega
    · rw [List.foldl_cons, ih, List.filter_cons, if_neg h]
      simp [h]

theorem advisorScore_eq_sum (texts : List Str) :
    advisorScore texts
      = (texts.map (fun text => (advisorIndicators.filter
          (fun ind => containsSub (lowerStr text) (lowerStr ind))).length)).sum := by
  have key : ∀ (ts : List Str) (acc : Nat),
      ts.foldl (fun score text =>
        advisorIndicators.foldl (fun sc ind =>
          if containsSub (lowerStr text) (lowerStr ind) then sc + 1 else sc) score) acc
      = acc + (ts.map (fun text => (advisorIndicators.filter
          (fun ind => containsSub (lowerStr text) (lowerStr ind))).length)).sum := by
    intro ts
    induction ts with
    | nil => intro acc; simp
    | cons a t ih =>
      intro acc
      rw [List.foldl_cons, ih, foldl_count_eq]
      rw [List.map_cons, List.sum_cons]
      omega
  have h0 := key texts 0
  rw [Nat.zero_add] at h0
  exact h0

/-! Heuristic-fallback fold lemmas. -/

theorem heurFold_utterances (l : List (Str × List Str)) (st : AState) :
    (List.foldl heurStep st l).utterances = st.utterances := by
  induction l generalizing st with
  | nil => rfl
  | cons a t ih => rw [List.foldl_cons, ih]; rfl

theorem heurFold_oracleCalls (l : List (Str × List Str)) (st : AState) :
    (List.foldl heurStep st l).oracleCalls = st.oracleCalls := by
  induction l generalizing st with
  | nil => rfl
  | cons a t ih => rw [List.foldl_cons, ih]; rfl

theorem heurFold_lastCount (l : List (Str × List Str)) (st : AState) :
    (List.foldl heurStep st l).lastUtteranceCount = st.lastUtteranceCount := by
  induction l generalizing st with
  | nil => rfl
  | cons a t ih => rw [List.foldl_cons, ih]; rfl

theorem heurFold_roles_hasKey (l : List (Str × List Str)) (st : AState) (k : Str) :
    hasKey (List.foldl heurStep st l).roles k = (hasKey st.roles k || hasKey l k) := by
  induction l generalizing st with
  | nil => simp [hasKey]
  | cons a t ih =>
    rw [List.foldl_cons, ih]
    show (hasKey (setKey st.roles a.1 (heuristicRole a.2)) k || hasKey t k) = _
    rw [hasKey_setKey, hasKey_cons, Bool.or_assoc]

theorem heurFold_roles_lookup_not_has (l : List (Str × List Str)) (st : AState) (k : Str)
    (h : hasKey l k = false) :
    lookupKey (List.foldl heurStep st l).roles k = lookupKey st.roles k := by
  induction l generalizing st with
  | nil => rfl
  | cons a t ih =>
    rw [hasKey_cons, Bool.or_eq_false_iff] at h
    rw [List.foldl_cons, ih _ h.2]
    show lookupKey (setKey st.roles a.1 (heuristicRole a.2)) k = _
    refine lookupKey_setKey_ne _ _ ?_
    intro he
    rw [he] at h
    simp at h

theorem heurFold_roles_lookup_mem (l : List (Str × List Str)) (st : AState)
    {k : Str} {texts : List Str}
    (hnd : (l.map Prod.fst).Nodup) (hm : (k, texts) ∈ l) :
    lookupKey (List.foldl heurStep st l).roles k = some (heuristicRole texts) := by
  induction l generalizing st with
  | nil => simp at hm
  | cons a t ih =>
    rw [List.map_cons, List.nodup_cons] at hnd
    rcases List.mem_cons.1 hm with h | h
    · have hkt : hasKey t k = false := by
        rw [← Bool.not_eq_true, hasKey, List.any_eq_true]
        rintro ⟨p, hp, hpk⟩
        rw [beq_iff_eq] at hpk
        have : a.1 ∈ t.map Prod.fst := by
          rw [← h]
          exact List.mem_map.2 ⟨p, hp, hpk⟩
        exact hnd.1 this
      rw [List.foldl_cons, heurFold_roles_lookup_not_has t _ k hkt]
      show lookupKey (setKey st.roles a.1 (heuristicRole a.2)) k = _
      rw [← h]
      exact lookupKey_setKey_self _ _ _
    · rw [List.foldl_cons]
      exact ih _ hnd.2 h

/-! Merge-step lemmas. -/

theorem updPairs_hasKey {cur : List (Str × JsonVal)} {elems : List JsonVal}
    {out : List (Str × JsonVal)}
    (h : updPairs cur elems = Except.ok out ∨ updPairs cur elems = Except.error out)
    (k : Str) (hk : hasKey out k = true) :
    hasKey cur k = true ∨ hasKey (pairsOf elems) k = true := by
  induction elems generalizing cur with
  | nil =>
    rcases h with h | h
    · rw [updPairs, Except.ok.injEq] at h
      subst h
      exact Or.inl hk
    · rw [updPairs] at h
      simp at h
  | cons e rest ih =>
    rcases hpi : pairItem e with _ | pi
    · have hstep : updPairs cur (e :: rest) = Except.error cur := by
        simp only [updPairs, hpi]
      rcases h with h | h
      · rw [hstep] at h
        simp at h
      · rw [hstep, Except.error.injEq] at h
        subst h
        exact Or.inl hk
    · rcases pi with _ | ⟨k1, v1⟩
      · have hstep : updPairs cur (e :: rest) = updPairs cur rest := by
          simp only [updPairs, hpi]
        rw [hstep] at h
        have hpo : pairsOf (e :: rest) = pairsOf rest := by
          simp only [pairsOf, hpi]
        rw [hpo]
        exact ih h
      · have hstep : updPairs cur (e :: rest) = updPairs (setKey cur k1 v1) rest := by
          simp only [updPairs, hpi]
        rw [hstep] at h
        have hpo : pairsOf (e :: rest) = (k1, v1) :: pairsOf rest := by
          simp only [pairsOf, hpi]
        rcases ih h with h1 | h1
        · rw [hasKey_setKey, Bool.or_eq_true] at h1
          rcases h1 with h1 | h1
          · exact Or.inl h1
          · right
            rw [hpo, hasKey_cons, Bool.or_eq_true]
            exact Or.inl h1
        · right
          rw [hpo, hasKey_cons, Bool.or_eq_true]
          exact Or.inr h1

theorem updField_hasKey {cur : List (Str × JsonVal)} {r : JsonVal} {key : Str}
    {out : List (Str × JsonVal)}
    (h : updField cur r key = Except.ok out ∨ updField cur r key = Except.error out)
    (k : Str) (hk : hasKey out k = true) :
    hasKey cur k = true ∨ hasKey (respField r key) k = true := by
  rcases r with _ | b | nl | sl | elems | fields
  · rcases h with h | h
    · simp [updField] at h
    · simp only [updField, Except.error.injEq] at h
      subst h
      exact Or.inl hk
  · rcases h with h | h
    · simp [updField] at h
    · simp only [updField, Except.error.injEq] at h
      subst h
      exact Or.inl hk
  · rcases h with h | h
    · simp [updField] at h
    · simp only [updField, Except.error.injEq] at h
      subst h
      exact Or.inl hk
  · rcases h with h | h
    · simp only [updField] at h
      split at h
      · simp at h
      · rw [Except.ok.injEq] at h
        subst h
        exact Or.inl hk
    · simp only [updField] at h
      split at h
      · rw [Except.error.injEq] at h
        subst h
        exact Or.inl hk
      · simp at h
  · rcases h with h | h
    · simp only [updField] at h
      split at h
      · simp at h
      · rw [Except.ok.injEq] at h
        subst h
        exact Or.inl hk
    · simp only [updField] at h
      split at h
      · rw [Except.error.injEq] at h
        subst h
        exact Or.inl hk
      · simp at h
  · rcases hlf : lookupKey fields key with _ | v
    · rcases h with h | h
      · simp only [updField, hlf, Except.ok.injEq] at h
        subst h
        exact Or.inl hk
      · simp [updField, hlf] at h
    · rcases v with _ | b2 | nl2 | sl2 | el2 | kvs
      · rcases h with h | h
        · simp [updField, hlf] at h
        · simp only [updField, hlf, Except.error.injEq] at h
          subst h
          exact Or.inl hk
      · rcases h with h | h
        · simp [updField, hlf] at h
        · simp only [updField, hlf, Except.error.injEq] at h
          subst h
          exact Or.inl hk
      · rcases h with h | h
        · simp [updField, hlf] at h
        · simp only [updField, hlf, Except.error.injEq] at h
          subst h
          exact Or.inl hk
      · cases sl2 with
        | nil =>
          rcases h with h | h
          · simp only [updField, hlf, Except.ok.injEq] at h
            subst h
            exact Or.inl hk
          · simp [updField, hlf] at h
        | cons c2 t2 =>
          rcases h with h | h
          · simp [updField, hlf] at h
          · simp only [updField, hlf, Except.error.injEq] at h
            subst h
            exact Or.inl hk
      · have hu : updField cur (JsonVal.jobj fields) key = updPairs cur el2 := by
          simp only [updField, hlf]
        rw [hu] at h
        have hres : respField (JsonVal.jobj fields) key = pairsOf el2 := by
          simp only [respField, hlf]
        rw [hres]
        exact updPairs_hasKey h k hk
      · rcases h with h | h
        · simp only [updField, hlf, Except.ok.injEq] at h
          subst h
          rw [hasKey_dictUpdate, Bool.or_eq_true] at hk
          rcases hk with hk | hk
          · exact Or.inl hk
          · right
            simpa [respField, hlf] using hk
        · simp [updField, hlf] at h

theorem mergeInto_ok_fields {s : AState} {r : JsonVal} {s' : AState}
    (h : mergeInto s r = Except.ok s') :
    s'.utterances = s.utterances ∧ s'.lastUtteranceCount = s.lastUtteranceCount ∧
      s'.oracleCalls = s.oracleCalls ∧
      s'.minUtterancesPerSpeaker = s.minUtterancesPerSpeaker ∧
      s'.knownSpeakers = s.knownSpeakers := by
  unfold mergeInto at h
  split at h
  · simp at h
  · split at h
    · simp at h
    · split at h
      · simp at h
      · rw [Except.ok.injEq] at h
        subst h
        exact ⟨rfl, rfl, rfl, rfl, rfl⟩

theorem mergeInto_err_fields {s : AState} {r : JsonVal} {s' : AState}
    (h : mergeInto s r = Except.error s') :
    s'.utterances = s.utterances ∧ s'.lastUtteranceCount = s.lastUtteranceCount ∧
      s'.oracleCalls = s.oracleCalls ∧
      s'.minUtterancesPerSpeaker = s.minUtterancesPerSpeaker ∧
      s'.knownSpeakers = s.knownSpeakers := by
  unfold mergeInto at h
  split at h
  · rw [Except.error.injEq] at h
    subst h
    exact ⟨rfl, rfl, rfl, rfl, rfl⟩
  · split at h
    · rw [Except.error.injEq] at h
      subst h
      exact ⟨rfl, rfl, rfl, rfl, rfl⟩
    · split at h
      · rw [Except.error.injEq] at h
        subst h
        exact ⟨rfl, rfl, rfl, rfl, rfl⟩
      · simp at h

theorem mergeInto_roles {s : AState} {r : JsonVal} {s' : AState}
    (h : mergeInto s r = Except.ok s' ∨ mergeInto s r = Except.error s') :
    updField s.roles r rolesKey = Except.ok s'.roles ∨
      updField s.roles r rolesKey = Except.error s'.roles := by
  rcases h with h | h
  · unfold mergeInto at h
    split at h
    · simp at h
    · rename_i rr h1
      split at h
      · simp at h
      · split at h
        · simp at h
        · rw [Except.ok.injEq] at h
          subst h
          exact Or.inl h1
  · unfold mergeInto at h
    split at h
    · rename_i rr h1
      rw [Except.error.injEq] at h
      subst h
      exact Or.inr h1
    · rename_i rr h1
      split at h
      · rw [Except.error.injEq] at h
        subst h
        exact Or.inl h1
      · split at h
        · rw [Except.error.injEq] at h
          subst h
          exact Or.inl h1
        · simp at h

/-! Classification-pass preservation lemmas. -/

theorem analyzeWithLlm_utterances (s : AState) (oracle : Except Unit Str) :
    (analyzeWithLlm s oracle).1.utterances = s.utterances := by
  by_cases he : s.utterances.isEmpty
  · simp [analyzeWithLlm, he]
  · cases oracle with
    | error e => simp [analyzeWithLlm, he, applyHeuristic, heurFold_utterances]
    | ok c =>
      rcases hp : parseCompletionScript c with _ | result
      · simp [analyzeWithLlm, he, hp, applyHeuristic, heurFold_utterances]
      · rcases hm : mergeInto { s with oracleCalls := s.oracleCalls + 1 } result with s2 | s2
        · simp only [analyzeWithLlm, he, hp, hm, if_false, Bool.false_eq_true]
          rw [applyHeuristic, heurFold_utterances]
          exact (mergeInto_err_fields hm).1
        · simp only [analyzeWithLlm, he, hp, hm, if_false, Bool.false_eq_true]
          exact (mergeInto_ok_fields hm).1

theorem analyzeWithLlm_lastCount (s : AState) (oracle : Except Unit Str) :
    (analyzeWithLlm s oracle).1.lastUtteranceCount = s.lastUtteranceCount := by
  by_cases he : s.utterances.isEmpty
  · simp [analyzeWithLlm, he]
  · cases oracle with
    | error e => simp [analyzeWithLlm, he, applyHeuristic, heurFold_lastCount]
    | ok c =>
      rcases hp : parseCompletionScript c with _ | result
      · simp [analyzeWithLlm, he, hp, applyHeuristic, heurFold_lastCount]
      · rcases hm : mergeInto { s with oracleCalls := s.oracleCalls + 1 } result with s2 | s2
        · simp only [analyzeWithLlm, he, hp, hm, if_false, Bool.false_eq_true]
          rw [applyHeuristic, heurFold_lastCount]
          exact (mergeInto_err_fields hm).2.1
        · simp only [analyzeWithLlm, he, hp, hm, if_false, Bool.false_eq_true]
          exact (mergeInto_ok_fields hm).2.1

theorem analyzeWithLlmModule_utterances (s : AState) (oracle : Except Unit Str) :
    (analyzeWithLlmModule s oracle).1.utterances = s.utterances := by
  by_cases he : s.utterances.isEmpty
  · simp [analyzeWithLlmModule, he]
  · cases oracle with
    | error e => simp [analyzeWithLlmModule, he]
    | ok c =>
      rcases hp : jsonParse (extractContent c) with _ | result
      · rcases hb : braceSpan c with _ | js
        · simp [analyzeWithLlmModule, he, hp, hb]
        · rcases hj : jsonParse js with _ | result
          · simp [analyzeWithLlmModule, he, hp, hb, hj]
          · rcases hm : mergeInto { s with oracleCalls := s.oracleCalls + 1 } result with s2 | s2
            · simp only [analyzeWithLlmModule, he, hp, hb, hj, hm, if_false, Bool.false_eq_true]
              exact (mergeInto_err_fields hm).1
            · simp only [analyzeWithLlmModule, he, hp, hb, hj, hm, if_false, Bool.false_eq_true]
              exact (mergeInto_ok_fields hm).1
      · rcases hm : mergeInto { s with oracleCalls := s.oracleCalls + 1 } result with s2 | s2
        · simp only [analyzeWithLlmModule, he, hp, hm, if_false, Bool.false_eq_true]
          exact (mergeInto_err_fields hm).1
        · simp only [analyzeWithLlmModule, he, hp, hm, if_false, Bool.false_eq_true]
          exact (mergeInto_ok_fields hm).1

theorem analyzeWithLlmModule_lastCount (s : AState) (oracle : Except Unit Str) :
    (analyzeWithLlmModule s oracle).1.lastUtteranceCount = s.lastUtteranceCount := by
  by_cases he : s.utterances.isEmpty
  · simp [analyzeWithLlmModule, he]
  · cases oracle with
    | error e => simp [analyzeWithLlmModule, he]
    | ok c =>
      rcases hp : jsonParse (extractContent c) with _ | result
      · rcases hb : braceSpan c with _ | js
        · simp [analyzeWithLlmModule, he, hp, hb]
        · rcases hj : jsonParse js with _ | result
          · simp [analyzeWithLlmModule, he, hp, hb, hj]
          · rcases hm : mergeInto { s with oracleCalls := s.oracleCalls + 1 } result with s2 | s2
            · simp only [analyzeWithLlmModule, he, hp, hb, hj, hm, if_false, Bool.false_eq_true]
              exact (mergeInto_err_fields hm).2.1
            · simp only [analyzeWithLlmModule, he, hp, hb, hj, hm, if_false, Bool.false_eq_true]
              exact (mergeInto_ok_fields hm).2.1
      · rcases hm : mergeInto { s with oracleCalls := s.oracleCalls + 1 } result with s2 | s2
        · simp only [analyzeWithLlmModule, he, hp, hm, if_false, Bool.false_eq_true]
          exact (mergeInto_err_fields hm).2.1
        · simp only [analyzeWithLlmModule, he, hp, hm, if_false, Bool.false_eq_true]
          exact (mergeInto_ok_fields hm).2.1

theorem analyzeWithLlmModule_oracleCalls_of_nonempty (s : AState) (oracle : Except Unit Str)
    (he : s.utterances.isEmpty = false) :
    (analyzeWithLlmModule s oracle).1.oracleCalls = s.oracleCalls + 1 := by
  cases oracle with
  | error e => simp [analyzeWithLlmModule, he]
  | ok c =>
    rcases hp : jsonParse (extractContent c) with _ | result
    · rcases hb : braceSpan c with _ | js
      · simp [analyzeWithLlmModule, he, hp, hb]
      · rcases hj : jsonParse js with _ | result
        · simp [analyzeWithLlmModule, he, hp, hb, hj]
        · rcases hm : mergeInto { s with oracleCalls := s.oracleCalls + 1 } result with s2 | s2
          · simp only [analyzeWithLlmModule, he, hp, hb, hj, hm, if_false, Bool.false_eq_true]
            exact (mergeInto_err_fields hm).2.2.1
          · simp only [analyzeWithLlmModule, he, hp, hb, hj, hm, if_false, Bool.false_eq_true]
            exact (mergeInto_ok_fields hm).2.2.1
    · rcases hm : mergeInto { s with oracleCalls := s.oracleCalls + 1 } result with s2 | s2
      · simp only [analyzeWithLlmModule, he, hp, hm, if_false, Bool.false_eq_true]
        exact (mergeInto_err_fields hm).2.2.1
      · simp only [analyzeWithLlmModule, he, hp, hm, if_false, Bool.false_eq_true]
        exact (mergeInto_ok_fields hm).2.2.1

/-! String-plumbing lemmas for the response-parsing pipeline. -/

theorem isPre_iff {a : Str} : ∀ {b : Str}, isPre a b = true ↔ a <+: b := by
  induction a with
  | nil =>
    intro b
    simp [isPre]
  | cons x xs ih =>
    intro b
    cases b with
    | nil => simp [isPre]
    | cons y ys =>
      by_cases hxy : x = y
      · subst hxy
        rw [isPre, if_pos rfl, ih, List.cons_prefix_cons]
        simp
      · rw [isPre, if_neg hxy]
        simp [List.cons_prefix_cons, hxy]

theorem containsSub_of_isPre {n h0 : Str} (h : isPre n h0 = true) :
    containsSub h0 n = true := by
  rw [containsSub, List.any_eq_true]
  exact ⟨h0, (List.mem_tails _ _).2 (List.suffix_refl h0), h⟩

theorem containsSub_mono_pre {h0 n1 n2 : Str} (hp : isPre n1 n2 = true)
    (hc : containsSub h0 n2 = true) : containsSub h0 n1 = true := by
  rw [containsSub, List.any_eq_true] at hc ⊢
  rcases hc with ⟨t, ht, hpre⟩
  exact ⟨t, ht, isPre_iff.2 ((isPre_iff.1 hp).trans (isPre_iff.1 hpre))⟩

theorem containsSub_false_of_not_mem {h0 : Str} {d : Char} {ds : Str} (hd : d ∉ h0) :
    containsSub h0 (d :: ds) = false := by
  rw [← Bool.not_eq_true, containsSub, List.any_eq_true]
  rintro ⟨t, ht, hpre⟩
  have htm : d ∈ t := by
    cases t with
    | nil => simp [isPre] at hpre
    | cons c r =>
      rw [isPre] at hpre
      by_cases hdc : d = c
      · subst hdc
        exact List.mem_cons_self _ _
      · rw [if_neg hdc] at hpre
        cases hpre
  exact hd (((List.mem_tails _ _).1 ht).subset htm)

theorem afterFirst_append {sep x y : Str} {d : Char} {ds : Str}
    (hsep : sep = d :: ds) (hx : d ∉ x) :
    afterFirst sep (x ++ sep ++ y) = some y := by
  induction x with
  | nil =>
    rw [List.nil_append, hsep, List.cons_append, afterFirst]
    have hp : isPre (d :: ds) (d :: (ds ++ y)) = true := by
      rw [← List.cons_append]
      exact isPre_iff.2 (List.prefix_append _ _)
    rw [if_pos hp, List.length_cons, List.drop_succ_cons]
    rw [List.drop_left]
  | cons c t ih =>
    have hdc : d ≠ c := fun he => hx (he ▸ List.mem_cons_self c t)
    rw [List.append_assoc, List.cons_append, afterFirst]
    have hni : isPre sep (c :: (t ++ (sep ++ y))) = false := by
      rw [hsep, isPre, if_neg hdc]
    rw [if_neg (by simp [hni]), ← List.append_assoc]
    exact ih (fun hm => hx (List.mem_cons_of_mem _ hm))

theorem beforeFirst_append {sep x y : Str} {d : Char} {ds : Str}
    (hsep : sep = d :: ds) (hx : d ∉ x) :
    beforeFirst sep (x ++ sep ++ y) = x := by
  induction x with
  | nil =>
    rw [List.nil_append, hsep, List.cons_append, beforeFirst]
    have hp : isPre (d :: ds) (d :: (ds ++ y)) = true := by
      rw [← List.cons_append]
      exact isPre_iff.2 (List.prefix_append _ _)
    rw [if_pos hp]
  | cons c t ih =>
    have hdc : d ≠ c := fun he => hx (he ▸ List.mem_cons_self c t)
    rw [List.append_assoc, List.cons_append, beforeFirst]
    have hni : isPre sep (c :: (t ++ (sep ++ y))) = false := by
      rw [hsep, isPre, if_neg hdc]
    rw [if_neg (by simp [hni]), ← List.append_assoc, ih (fun hm => hx (List.mem_cons_of_mem _ hm))]

theorem dropWhile_append_all {p : Char → Bool} {x y : Str} (h : ∀ c ∈ x, p c = true) :
    (x ++ y).dropWhile p = y.dropWhile p := by
  induction x with
  | nil => rfl
  | cons c t ih =>
    rw [List.cons_append, List.dropWhile_cons, if_pos (h c (List.mem_cons_self _ _))]
    exact ih (fun e he => h e (List.mem_cons_of_mem _ he))

theorem dropWhile_eq_self_head {p : Char → Bool} {l : Str} {c : Char}
    (h : l.head? = some c) (hc : p c = false) : l.dropWhile p = l := by
  cases l with
  | nil => cases h
  | cons a t =>
    rw [List.head?_cons, Option.some.injEq] at h
    subst h
    rw [List.dropWhile_cons, if_neg (by simp [hc])]

theorem pyStrip_of_ends {P : Str} {hch lch : Char}
    (h1 : P.head? = some hch) (h2 : P.getLast? = some lch)
    (hs1 : isPySpace hch = false) (hs2 : isPySpace lch = false) : pyStrip P = P := by
  rw [pyStrip, dropWhile_eq_self_head h1 hs1,
    dropWhile_eq_self_head (by rw [List.head?_reverse]; exact h2) hs2, List.reverse_reverse]

theorem fenceWrap_eq (P : Str) :
    fenceWrap P = fenceJson ++ ('\n' :: (P ++ ('\n' :: fence3))) := rfl

theorem pyStrip_nl_wrap {P : Str} {P' : Str}
    (hP : P = lbrace :: P') (h2 : P.getLast? = some rbrace) :
    pyStrip ('\n' :: (P ++ ['\n'])) = P := by
  rw [pyStrip]
  have hstep1 : ('\n' :: (P ++ ['\n'])).dropWhile isPySpace = P ++ ['\n'] := by
    rw [List.dropWhile_cons, if_pos (by decide)]
    exact dropWhile_eq_self_head (by rw [hP]; rfl) (by decide)
  rw [hstep1, List.reverse_append]
  have hstep2 : (['\n'].reverse ++ P.reverse).dropWhile isPySpace = P.reverse := by
    rw [List.reverse_singleton, List.cons_append, List.dropWhile_cons, if_pos (by decide),
      List.nil_append]
    exact dropWhile_eq_self_head (by rw [List.head?_reverse]; exact h2) (by decide)
  rw [hstep2, List.reverse_reverse]

theorem extractContent_of_no_fence {c : Str} (h : containsSub c fence3 = false) :
    extractContent c = pyStrip c := by
  have hj : containsSub c fenceJson = false := by
    rw [← Bool.not_eq_true]
    intro hcon
    have hc3 := @containsSub_mono_pre c fence3 fenceJson (by decide) hcon
    simp [h] at hc3
  rw [extractContent, if_neg (by simp [hj]), if_neg (by simp [h])]

theorem extractContent_fenced {P : Str} {P' : Str} (hbt : btick ∉ P)
    (hP : P = lbrace :: P') (hl : P.getLast? = some rbrace) :
    extractContent (fenceWrap P) = P := by
  have hc : containsSub (fenceWrap P) fenceJson = true := by
    rw [fenceWrap_eq]
    exact containsSub_of_isPre (isPre_iff.2 (List.prefix_append _ _))
  rw [extractContent, if_pos (by simp [hc])]
  have ha : afterFirst fenceJson (fenceWrap P) = some ('\n' :: (P ++ ('\n' :: fence3))) := by
    rw [fenceWrap_eq]
    have := @afterFirst_append fenceJson [] ('\n' :: (P ++ ('\n' :: fence3)))
      btick ("``json".toList) (by decide) (by simp)
    rw [List.nil_append] at this
    exact this
  rw [ha, Option.getD_some]
  have hshape : '\n' :: (P ++ ('\n' :: fence3))
      = ('\n' :: (P ++ ['\n'])) ++ fence3 ++ [] := by
    rw [List.append_nil, List.cons_append, List.append_assoc]
    rfl
  rw [hshape]
  have hb : beforeFirst fence3 (('\n' :: (P ++ ['\n'])) ++ fence3 ++ [])
      = '\n' :: (P ++ ['\n']) := by
    refine @beforeFirst_append fence3 ('\n' :: (P ++ ['\n'])) [] btick ("``".toList)
      (by decide) ?_
    intro hmem
    rcases List.mem_cons.1 hmem with hx | hx
    · cases hx
    · rcases List.mem_append.1 hx with hx2 | hx2
      · exact hbt hx2
      · rcases List.mem_singleton.1 hx2 with hx3
        cases hx3
  rw [hb]
  exact pyStrip_nl_wrap hP hl

theorem braceSpan_extract {a P b : Str} {P' : Str} (ha : lbrace ∉ a) (hb : rbrace ∉ b)
    (hP : P = lbrace :: P') (h2 : P.getLast? = some rbrace) :
    braceSpan (a ++ P ++ b) = some P := by
  have hdrop : (a ++ P ++ b).dropWhile (fun c => !(c == lbrace)) = P ++ b := by
    rw [List.append_assoc]
    rw [dropWhile_append_all (fun c hc => by
      simp only [Bool.not_eq_true']
      rw [beq_eq_false_iff_ne]
      intro he
      exact ha (he ▸ hc))]
    exact dropWhile_eq_self_head (by rw [hP]; rfl) (by simp)
  have hany : (P ++ b).any (fun c => c == rbrace) = true := by
    rw [List.any_eq_true]
    refine ⟨rbrace, List.mem_append.2 (Or.inl ?_), by simp⟩
    have hr : P.reverse.head? = some rbrace := by rw [List.head?_reverse]; exact h2
    have : rbrace ∈ P.reverse := by
      cases hrev : P.reverse with
      | nil => rw [hrev] at hr; cases hr
      | cons x t =>
        rw [hrev, List.head?_cons, Option.some.injEq] at hr
        rw [← hr]
        exact List.mem_cons_self _ _
    exact List.mem_reverse.1 this
  have hrd : ((P ++ b).reverse.dropWhile (fun c => !(c == rbrace))).reverse = P := by
    rw [List.reverse_append]
    rw [dropWhile_append_all (fun c hc => by
      simp only [Bool.not_eq_true']
      rw [beq_eq_false_iff_ne]
      intro he
      exact hb (he ▸ (List.mem_reverse.1 hc)))]
    rw [dropWhile_eq_self_head (by rw [List.head?_reverse]; exact h2) (by simp),
      List.reverse_reverse]
  rw [braceSpan]
  simp only [hdrop]
  rw [hP, List.cons_append]
  rw [← List.cons_append, ← hP]
  simp only [hP, List.cons_append]
  rw [if_pos (by rw [← List.cons_append, ← hP]; exact hany)]
  rw [← List.cons_append, ← hP, hrd]

theorem analyzeWithLlmModule_minUtterances (s : AState) (oracle : Except Unit Str) :
    (analyzeWithLlmModule s oracle).1.minUtterancesPerSpeaker = s.minUtterancesPerSpeaker := by
  by_cases he : s.utterances.isEmpty
  · simp [analyzeWithLlmModule, he]
  · cases oracle with
    | error e => simp [analyzeWithLlmModule, he]
    | ok c =>
      rcases hp : jsonParse (extractContent c) with _ | result
      · rcases hb : braceSpan c with _ | js
        · simp [analyzeWithLlmModule, he, hp, hb]
        · rcases hj : jsonParse js with _ | result
          · simp [analyzeWithLlmModule, he, hp, hb, hj]
          · rcases hm : mergeInto { s with oracleCalls := s.oracleCalls + 1 } result with s2 | s2
            · simp only [analyzeWithLlmModule, he, hp, hb, hj, hm, if_false, Bool.false_eq_true]
              exact (mergeInto_err_fields hm).2.2.2.1
            · simp only [analyzeWithLlmModule, he, hp, hb, hj, hm, if_false, Bool.false_eq_true]
              exact (mergeInto_ok_fields hm).2.2.2.1
      · rcases hm : mergeInto { s with oracleCalls := s.oracleCalls + 1 } result with s2 | s2
        · simp only [analyzeWithLlmModule, he, hp, hm, if_false, Bool.false_eq_true]
          exact (mergeInto_err_fields hm).2.2.2.1
        · simp only [analyzeWithLlmModule, he, hp, hm, if_false, Bool.false_eq_true]
          exact (mergeInto_ok_fields hm).2.2.2.1

/-! Background-analysis-loop scan lemmas. -/

theorem any_map_counts (l : List (Str × List Str)) (P : Str × Nat → Bool) :
    (l.map (fun p => (p.1, p.2.length))).any P = l.any (fun p => P (p.1, p.2.length)) := by
  induction l with
  | nil => rfl
  | cons a t ih => simp only [List.map_cons, List.any_cons, ih]

theorem scanStep_snd (s : AState) (o : Except Unit Str) :
    (scanStep s o).2 = s.utterances.any (fun p =>
      decide ((lookupKey s.lastUtteranceCount p.1).getD 0 < p.2.length)
        && decide (s.minUtterancesPerSpeaker ≤ p.2.length)) := by
  rw [scanStep]
  by_cases h : (s.utterances.map fun p => (p.1, p.2.length)).any (fun p =>
      decide ((lookupKey s.lastUtteranceCount p.1).getD 0 < p.2)
        && decide (s.minUtterancesPerSpeaker ≤ p.2))
  · simp only [h, if_true]
    rw [← h, any_map_counts]
  · simp only [h, Bool.false_eq_true, if_false]
    rw [Bool.not_eq_true] at h
    rw [any_map_counts] at h
    exact h.symm

theorem scanStep_false_eq {s : AState} {o : Except Unit Str}
    (h : (scanStep s o).2 = false) : scanStep s o = (s, false) := by
  rw [scanStep_snd] at h
  rw [scanStep]
  have hm : (s.utterances.map fun p => (p.1, p.2.length)).any (fun p =>
      decide ((lookupKey s.lastUtteranceCount p.1).getD 0 < p.2)
        && decide (s.minUtterancesPerSpeaker ≤ p.2)) = false := by
    rw [any_map_counts]
    exact h
  simp only [hm, Bool.false_eq_true, if_false]

theorem scanStep_true_eq {s : AState} {o : Except Unit Str}
    (h : (scanStep s o).2 = true) :
    scanStep s o = ((analyzeWithLlmModule
      { s with lastUtteranceCount := s.utterances.map (fun p => (p.1, p.2.length)) } o).1,
      true) := by
  rw [scanStep_snd] at h
  rw [scanStep]
  have hm : (s.utterances.map fun p => (p.1, p.2.length)).any (fun p =>
      decide ((lookupKey s.lastUtteranceCount p.1).getD 0 < p.2)
        && decide (s.minUtterancesPerSpeaker ≤ p.2)) = true := by
    rw [any_map_counts]
    exact h
  simp only [hm, if_true]

theorem scanStep_trigger_iff (s : AState) (o : Except Unit Str) :
    (scanStep s o).2 = true ↔ ∃ p ∈ s.utterances,
      (lookupKey s.lastUtteranceCount p.1).getD 0 < p.2.length ∧
        s.minUtterancesPerSpeaker ≤ p.2.length := by
  rw [scanStep_snd, List.any_eq_true]
  constructor
  · rintro ⟨p, hp, hcond⟩
    rw [Bool.and_eq_true, decide_eq_true_eq, decide_eq_true_eq] at hcond
    exact ⟨p, hp, hcond⟩
  · rintro ⟨p, hp, h1, h2⟩
    exact ⟨p, hp, by rw [Bool.and_eq_true, decide_eq_true_eq, decide_eq_true_eq]; exact ⟨h1, h2⟩⟩

theorem appendVal_isEmpty (l : List (Str × List Str)) (k t : Str) :
    (appendVal l k t).isEmpty = false := by
  cases l with
  | nil => rfl
  | cons p r =>
    rw [appendVal]
    by_cases h : p.1 = k
    · simp [h]
    · simp [h]

/-! Claim theorems. -/

/-- C4 counterexample: one `add_utterance` call with empty text still
increments the utterance count — the count is 1 although the number of
non-empty-text calls is 0, refuting "equals the number of calls whose text
was non-empty". -/
theorem c4_empty_text_counted_cex :
    getUtteranceCount (runAdds initState [(("A".toList), ([] : Str))]) ("A".toList) = 1 ∧
      (([((("A".toList) : Str), ([] : Str))]).filter
        (fun c => c.1 == "A".toList && !(c.2.isEmpty))).length = 0 :=
  ⟨rfl, rfl⟩

/-- C4 (amended): `utterance_count` is non-decreasing across every
`add_utterance` call, and after any sequence of calls on a fresh analyzer it
equals the TOTAL number of calls made for that speaker — empty-text calls
included, since `add_utterance` appends unconditionally. -/
theorem c4_count_monotone_total_calls :
    (∀ (s : AState) (spk t spk' : Str),
      getUtteranceCount s spk' ≤ getUtteranceCount (addUtterance s spk t).1 spk') ∧
    (∀ (calls : List (Str × Str)) (spk : Str),
      getUtteranceCount (runAdds initState calls) spk
        = (calls.filter (fun c => c.1 == spk)).length) := by
  constructor
  · intro s spk t spk'
    rw [getUtteranceCount_addUtterance]
    omega
  · intro calls spk
    rw [getUtteranceCount_runAdds]
    simp [getUtteranceCount, initState, lookupKey]

/-- C10: `add_utterance` returns `True` exactly on the first call ever made
for a speaker id, regardless of text content; any call (empty text included)
registers the speaker and increments its utterance count by one. -/
theorem c10_first_call_flag (calls : List (Str × Str)) (spk t : Str) :
    ((addUtterance (runAdds initState calls) spk t).2 = true ↔ ∀ c ∈ calls, c.1 ≠ spk) ∧
      getUtteranceCount (addUtterance (runAdds initState calls) spk t).1 spk
        = getUtteranceCount (runAdds initState calls) spk + 1 ∧
      spk ∈ (addUtterance (runAdds initState calls) spk t).1.knownSpeakers := by
  have hmem : ((runAdds initState calls).knownSpeakers.any (fun k => k == spk)) = true
      ↔ ∃ c ∈ calls, c.1 = spk := by
    rw [List.any_eq_true]
    constructor
    · rintro ⟨k, hk, hke⟩
      rw [beq_iff_eq] at hke
      subst hke
      rcases (known_runAdds_mem initState calls k).1 hk with h0 | h0
      · simp [initState] at h0
      · exact h0
    · intro hex
      exact ⟨spk, (known_runAdds_mem initState calls spk).2 (Or.inr hex), by simp⟩
  refine ⟨?_, ?_, ?_⟩
  · rw [addUtterance_snd, Bool.not_eq_true']
    constructor
    · intro h c hc he
      exact absurd (hmem.2 ⟨c, hc, he⟩) (by simp [h])
    · intro hall
      rw [← Bool.not_eq_true, hmem]
      rintro ⟨c, hc, he⟩
      exact hall c hc he
  · rw [getUtteranceCount_addUtterance]
    simp
  · exact (addUtterance_known_mem _ spk t spk).2 (Or.inr rfl)

/-- C2 counterexample: for the utterances ["risk", "risk"] exactly ONE
distinct indicator term matches, so the claimed distinct-count rule
(`score >= 2 ⇒ advisor, else client`) classifies client/0.6; the code counts
one point per (utterance, indicator) pair, reaches 2 and returns
advisor/0.7. -/
theorem c2_distinct_count_cex :
    distinctIndicatorCount ["risk".toList, "risk".toList] = 1 ∧
      advisorScore ["risk".toList, "risk".toList] = 2 ∧
      heuristicRole ["risk".toList, "risk".toList] = JsonVal.jstr ("advisor".toList) ∧
      heuristicConfidence ["risk".toList, "risk".toList] = JsonVal.jnum ("0.7".toList) :=
  ⟨rfl, rfl, rfl, rfl⟩

/-- C2 (amended): the heuristic score is the number of
(utterance, indicator-term) pairs with a case-insensitive substring match —
an indicator occurring in several utterances scores once per utterance, not
once in total; the decision rule (`score >= 2 ⇒ advisor/0.7, else client/0.6`)
and determinism (the classifier is a pure function of the utterance texts)
hold as claimed. -/
theorem c2_pairwise_score_rule (texts : List Str) :
    advisorScore texts = (texts.map (fun text => (advisorIndicators.filter
        (fun ind => containsSub (lowerStr text) (lowerStr ind))).length)).sum ∧
    heuristicRole texts = (if 2 ≤ advisorScore texts
      then JsonVal.jstr ("advisor".toList) else JsonVal.jstr ("client".toList)) ∧
    heuristicConfidence texts = (if 2 ≤ advisorScore texts
      then JsonVal.jnum ("0.7".toList) else JsonVal.jnum ("0.6".toList)) :=
  ⟨advisorScore_eq_sum texts, rfl, rfl⟩

/-- C8: requesting a classification pass before any utterances exist is not
an error: the pass returns the failure value `False` before any oracle call
and leaves the state — in particular the empty belief state — unchanged. -/
theorem c8_empty_store_safe (s : AState) (oracle : Except Unit Str)
    (h : s.utterances = []) : analyzeWithLlmModule s oracle = (s, false) := by
  simp [analyzeWithLlmModule, h]

/-- Witness for C8 at the freshly-initialised analyzer. -/
theorem c8_empty_store_safe_witness :
    analyzeWithLlmModule initState (Except.ok ("x".toList)) = (initState, false) :=
  c8_empty_store_safe initState (Except.ok ("x".toList)) rfl

/-- C5 counterexample: delivering the first utterance through the
transcription callback applies the oracle completion function synchronously
inside that very call — the instrumented invocation counter moves from 0
to 1, refuting "never applied synchronously within that call". -/
theorem c5_ingestion_invokes_oracle_cex :
    initState.oracleCalls = 0 ∧
      (handleFinalResult initState ("A".toList) ("hej".toList)
        (Except.error ())).oracleCalls = 1 :=
  ⟨rfl, rfl⟩

/-- C5 (amended): `add_utterance` itself never applies the oracle, and the
transcription callback leaves the oracle untouched for an already-known
speaker; but when the utterance introduces a new speaker the callback
synchronously performs exactly one oracle invocation inside the ingestion
call. -/
theorem c5_ingestion_oracle_calls :
    (∀ (s : AState) (spk t : Str),
      (addUtterance s spk t).1.oracleCalls = s.oracleCalls) ∧
    (∀ (s : AState) (spk t : Str) (oracle : Except Unit Str),
      s.knownSpeakers.any (fun k => k == spk) = true →
        (handleFinalResult s spk t oracle).oracleCalls = s.oracleCalls) ∧
    (∀ (s : AState) (spk t : Str) (oracle : Except Unit Str),
      s.knownSpeakers.any (fun k => k == spk) = false →
        (handleFinalResult s spk t oracle).oracleCalls = s.oracleCalls + 1) := by
  refine ⟨fun s spk t => rfl, ?_, ?_⟩
  · intro s spk t oracle h
    have hsnd : (addUtterance s spk t).2 = false := by
      rw [addUtterance_snd, h]
      rfl
    simp only [handleFinalResult, hsnd, Bool.false_eq_true, if_false]
    exact addUtterance_oracleCalls s spk t
  · intro s spk t oracle h
    have hsnd : (addUtterance s spk t).2 = true := by
      rw [addUtterance_snd, h]
      rfl
    simp only [handleFinalResult, hsnd, if_true]
    rw [analyzeWithLlmModule_oracleCalls_of_nonempty _ _
      (by rw [addUtterance_utterances]; exact appendVal_isEmpty _ _ _)]
    rw [addUtterance_oracleCalls]

/-- Witness for C5 (amended), known-speaker conjunct, at a concrete state. -/
theorem c5_ingestion_oracle_calls_witness :
    (handleFinalResult (addUtterance initState ("A".toList) ("x".toList)).1
      ("A".toList) ("y".toList) (Except.error ())).oracleCalls
      = (addUtterance initState ("A".toList) ("x".toList)).1.oracleCalls :=
  c5_ingestion_oracle_calls.2.1 (addUtterance initState ("A".toList) ("x".toList)).1
    ("A".toList) ("y".toList) (Except.error ()) (by decide)

/-- C6 counterexample: with one recorded utterance the classification pass
performs its single oracle invocation while the analysis lock is held — the
lock is not released before the oracle call begins. -/
theorem c6_oracle_under_lock_cex :
    countOracleInvokes
        (analyzeLockTrace (addUtterance initState ("A".toList) ("x".toList)).1) = 1 ∧
      countOracleUnderLock
        (analyzeLockTrace (addUtterance initState ("A".toList) ("x".toList)).1) = 1 :=
  ⟨rfl, rfl⟩

/-- C6 (amended): the entire pass, oracle call included, runs inside
`with self.analysis_lock`: for every state with recorded evidence the single
oracle invocation of the pass occurs while the lock is held, so an ingestion
call can block for the duration of an oracle round trip. -/
theorem c6_lock_held_across_oracle (s : AState) (h : s.utterances.isEmpty = false) :
    countOracleInvokes (analyzeLockTrace s) = 1 ∧
      countOracleUnderLock (analyzeLockTrace s) = 1 := by
  rw [analyzeLockTrace, if_neg (by simp [h])]
  exact ⟨rfl, rfl⟩

/-- Witness for C6 (amended) at a concrete one-speaker state. -/
theorem c6_lock_held_across_oracle_witness :
    countOracleInvokes
        (analyzeLockTrace (addUtterance initState ("B".toList) ("z".toList)).1) = 1 ∧
      countOracleUnderLock
        (analyzeLockTrace (addUtterance initState ("B".toList) ("z".toList)).1) = 1 :=
  c6_lock_held_across_oracle (addUtterance initState ("B".toList) ("z".toList)).1 (by decide)

/-- C1 counterexample: in the module analyzer
(`src/speaker_identification.py`) a raising oracle call leaves speakers
unclassified: speaker "A" has two utterances with 2+ indicator matches (so
the Heuristic Fallback Classifier would say advisor), yet after the failing
pass the belief state still has no entry for "A" and the pass reports
failure — no fallback exists in that implementation. -/
theorem c1_module_no_fallback_cex :
    2 ≤ advisorScore ["Jag rekommenderar en diversifierad portfölj".toList,
      "Vi ser över risk och avkastning".toList] ∧
    hasKey (runAdds initState
      [(("A".toList), "Jag rekommenderar en diversifierad portfölj".toList),
       (("A".toList), "Vi ser över risk och avkastning".toList)]).utterances
      ("A".toList) = true ∧
    (analyzeWithLlmModule (runAdds initState
      [(("A".toList), "Jag rekommenderar en diversifierad portfölj".toList),
       (("A".toList), "Vi ser över risk och avkastning".toList)])
      (Except.error ())).2 = false ∧
    hasKey (analyzeWithLlmModule (runAdds initState
      [(("A".toList), "Jag rekommenderar en diversifierad portfölj".toList),
       (("A".toList), "Vi ser över risk och avkastning".toList)])
      (Except.error ())).1.roles ("A".toList) = false := by
  refine ⟨by decide, by decide, by decide, by decide⟩

/-- C1 (amended): the claimed fallback behaviour holds for the script
analyzer (`scripts/test_dynamic_speaker_identification.py`) only: there, when
the oracle raises or its response fails both parse attempts, every speaker
with recorded utterances ends the pass classified, with exactly the Heuristic
Fallback Classifier's role; the module analyzer has no fallback (see the
counterexample). -/
theorem c1_script_fallback_covers_all (s : AState) (oracle : Except Unit Str)
    (hnd : (s.utterances.map Prod.fst).Nodup)
    (hfail : oracle = Except.error () ∨
      ∃ c, oracle = Except.ok c ∧ parseCompletionScript c = none) :
    ∀ spk texts, (spk, texts) ∈ (analyzeWithLlm s oracle).1.utterances →
      lookupKey (analyzeWithLlm s oracle).1.roles spk = some (heuristicRole texts) := by
  intro spk texts hmem
  rw [analyzeWithLlm_utterances] at hmem
  by_cases he : s.utterances.isEmpty
  · rw [List.isEmpty_iff] at he
    rw [he] at hmem
    cases hmem
  · have hred : (analyzeWithLlm s oracle).1
        = applyHeuristic { s with oracleCalls := s.oracleCalls + 1 } := by
      rcases hfail with h | ⟨c, hc, hp⟩
      · subst h
        simp [analyzeWithLlm, he]
      · subst hc
        simp [analyzeWithLlm, he, hp]
    rw [hred, applyHeuristic]
    exact heurFold_roles_lookup_mem _ _ hnd hmem

/-- Witness for C1 (amended): a raising oracle on a two-utterance state
leaves "A" classified with the heuristic's output. -/
theorem c1_script_fallback_covers_all_witness :
    lookupKey (analyzeWithLlm (runAdds initState
        [(("A".toList), "Jag rekommenderar en diversifierad portfölj".toList),
         (("A".toList), "Vi ser över risk och avkastning".toList)])
      (Except.error ())).1.roles ("A".toList)
      = some (heuristicRole ["Jag rekommenderar en diversifierad portfölj".toList,
          "Vi ser över risk och avkastning".toList]) :=
  c1_script_fallback_covers_all (runAdds initState
      [(("A".toList), "Jag rekommenderar en diversifierad portfölj".toList),
       (("A".toList), "Vi ser över risk och avkastning".toList)])
    (Except.error ()) (by decide) (Or.inl rfl) ("A".toList)
    ["Jag rekommenderar en diversifierad portfölj".toList,
     "Vi ser över risk och avkastning".toList] (by decide)

/-- C9 counterexample: an oracle response whose `roles` field names a
speaker absent from the evidence store is merged verbatim — both when the
field is an object and when it is a list of key/value pairs (which Python's
`dict.update` also accepts): "Z" enters the belief state although only "A"
ever spoke, violating the claimed belief-state-⊆-evidence invariant for
arbitrary oracle responses. -/
theorem c9_unknown_speaker_in_beliefs_cex :
    (hasKey (analyzeWithLlm (runAdds initState [(("A".toList), ("hej".toList))])
        (Except.ok ("\x7b\"roles\":\x7b\"Z\":\"advisor\"\x7d\x7d".toList))).1.roles
      ("Z".toList) = true ∧
    hasKey (analyzeWithLlm (runAdds initState [(("A".toList), ("hej".toList))])
        (Except.ok ("\x7b\"roles\":\x7b\"Z\":\"advisor\"\x7d\x7d".toList))).1.utterances
      ("Z".toList) = false) ∧
    (hasKey (analyzeWithLlm (runAdds initState [(("A".toList), ("hej".toList))])
        (Except.ok ("\x7b\"roles\":[[\"Z\",\"advisor\"]]\x7d".toList))).1.roles
      ("Z".toList) = true ∧
    hasKey (analyzeWithLlm (runAdds initState [(("A".toList), ("hej".toList))])
        (Except.ok ("\x7b\"roles\":[[\"Z\",\"advisor\"]]\x7d".toList))).1.utterances
      ("Z".toList) = false) :=
  ⟨⟨rfl, rfl⟩, ⟨rfl, rfl⟩⟩

/-- C9 (amended): the belief-state-⊆-evidence invariant is preserved by
recording utterances, by fallback passes, and by classification passes whose
parsed response names only speakers present in the evidence store; an oracle
response naming an unknown speaker breaks it (see the counterexample). -/
theorem c9_invariant_preserved :
    (∀ (s : AState) (spk t : Str),
      (∀ k, hasKey s.roles k = true → hasKey s.utterances k = true) →
      ∀ k, hasKey (addUtterance s spk t).1.roles k = true →
        hasKey (addUtterance s spk t).1.utterances k = true) ∧
    (∀ (s : AState) (oracle : Except Unit Str),
      (∀ k, hasKey s.roles k = true → hasKey s.utterances k = true) →
      (∀ c result, oracle = Except.ok c → parseCompletionScript c = some result →
        ∀ k, hasKey (respField result rolesKey) k = true → hasKey s.utterances k = true) →
      ∀ k, hasKey (analyzeWithLlm s oracle).1.roles k = true →
        hasKey (analyzeWithLlm s oracle).1.utterances k = true) := by
  constructor
  · intro s spk t hinv k hk
    rw [addUtterance_roles] at hk
    rw [addUtterance_utterances, hasKey_appendVal, Bool.or_eq_true]
    exact Or.inl (hinv k hk)
  · intro s oracle hinv hsafe k hk
    rw [analyzeWithLlm_utterances]
    by_cases he : s.utterances.isEmpty
    · have hid : (analyzeWithLlm s oracle).1 = s := by simp [analyzeWithLlm, he]
      rw [hid] at hk
      exact hinv k hk
    · cases oracle with
      | error e =>
        have hred : (analyzeWithLlm s (Except.error e)).1
            = applyHeuristic { s with oracleCalls := s.oracleCalls + 1 } := by
          simp [analyzeWithLlm, he]
        rw [hred, applyHeuristic, heurFold_roles_hasKey, Bool.or_eq_true] at hk
        rcases hk with hk | hk
        · exact hinv k hk
        · exact hk
      | ok c =>
        rcases hp : parseCompletionScript c with _ | result
        · have hred : (analyzeWithLlm s (Except.ok c)).1
              = applyHeuristic { s with oracleCalls := s.oracleCalls + 1 } := by
            simp [analyzeWithLlm, he, hp]
          rw [hred, applyHeuristic, heurFold_roles_hasKey, Bool.or_eq_true] at hk
          rcases hk with hk | hk
          · exact hinv k hk
          · exact hk
        · have hsafe2 : ∀ k2, hasKey (respField result rolesKey) k2 = true
              → hasKey s.utterances k2 = true := hsafe c result rfl hp
          rcases hm : mergeInto { s with oracleCalls := s.oracleCalls + 1 } result
            with s2 | s2
          · have hred : (analyzeWithLlm s (Except.ok c)).1 = applyHeuristic s2 := by
              simp [analyzeWithLlm, he, hp, hm]
            rw [hred, applyHeuristic, heurFold_roles_hasKey, Bool.or_eq_true] at hk
            have hut : s2.utterances = s.utterances := (mergeInto_err_fields hm).1
            rcases hk with hk | hk
            · rcases updField_hasKey (mergeInto_roles (Or.inr hm)) k hk with h1 | h1
              · exact hinv k h1
              · exact hsafe2 k h1
            · rw [hut] at hk
              exact hk
          · have hred : (analyzeWithLlm s (Except.ok c)).1 = s2 := by
              simp [analyzeWithLlm, he, hp, hm]
            rw [hred] at hk
            rcases updField_hasKey (mergeInto_roles (Or.inl hm)) k hk with h1 | h1
            · exact hinv k h1
            · exact hsafe2 k h1

/-- Witness for C9 (amended): after a fallback pass over a one-speaker store,
the classified speaker "A" indeed has evidence. -/
theorem c9_invariant_preserved_witness :
    hasKey (analyzeWithLlm (runAdds initState [(("A".toList), ("hej".toList))])
      (Except.error ())).1.utterances ("A".toList) = true :=
  c9_invariant_preserved.2 (runAdds initState [(("A".toList), ("hej".toList))])
    (Except.error ())
    (fun k hk => by simp [runAdds_roles, initState, hasKey] at hk)
    (fun c result hc hp k hk => nomatch hc)
    ("A".toList) (by decide)

/-- C3: the background scan triggers a classification pass iff some speaker's
current utterance count strictly exceeds its stored watermark and is at or
above the minimum-utterances threshold (default 2); a triggering scan makes
exactly one oracle call, a non-triggering scan makes none and changes
nothing, and immediately after a triggering scan a poll with no new
utterances does not trigger again. -/
theorem c3_trigger_iff_and_debounce :
    initState.minUtterancesPerSpeaker = 2 ∧
    (∀ (s : AState) (o : Except Unit Str),
      ((scanStep s o).2 = true ↔ ∃ p ∈ s.utterances,
        (lookupKey s.lastUtteranceCount p.1).getD 0 < p.2.length ∧
          s.minUtterancesPerSpeaker ≤ p.2.length)) ∧
    (∀ (s : AState) (o : Except Unit Str), (scanStep s o).2 = true →
      (scanStep s o).1.oracleCalls = s.oracleCalls + 1) ∧
    (∀ (s : AState) (o : Except Unit Str), (scanStep s o).2 = false →
      scanStep s o = (s, false)) ∧
    (∀ (s : AState) (o o' : Except Unit Str),
      (s.utterances.map Prod.fst).Nodup → (scanStep s o).2 = true →
      (scanStep (scanStep s o).1 o').2 = false) := by
  refine ⟨rfl, scanStep_trigger_iff, ?_, fun s o h => scanStep_false_eq h, ?_⟩
  · intro s o htrig
    rcases (scanStep_trigger_iff s o).1 htrig with ⟨p, hp, _, _⟩
    have hne : s.utterances.isEmpty = false := by
      cases hu : s.utterances with
      | nil => rw [hu] at hp; cases hp
      | cons a tl => rfl
    rw [scanStep_true_eq htrig]
    exact analyzeWithLlmModule_oracleCalls_of_nonempty _ o hne
  · intro s o o' hnd htrig
    rw [scanStep_true_eq htrig]
    have hutt : ((analyzeWithLlmModule
        { s with lastUtteranceCount := s.utterances.map (fun p => (p.1, p.2.length)) }
        o).1).utterances = s.utterances :=
      analyzeWithLlmModule_utterances _ o
    have hlast : ((analyzeWithLlmModule
        { s with lastUtteranceCount := s.utterances.map (fun p => (p.1, p.2.length)) }
        o).1).lastUtteranceCount = s.utterances.map (fun p => (p.1, p.2.length)) :=
      analyzeWithLlmModule_lastCount _ o
    rw [scanStep_snd, hutt, hlast]
    rw [← Bool.not_eq_true, List.any_eq_true]
    rintro ⟨p, hp, hcond⟩
    rw [Bool.and_eq_true, decide_eq_true_eq, decide_eq_true_eq] at hcond
    have hccnd : ((s.utterances.map (fun p => (p.1, p.2.length))).map Prod.fst).Nodup := by
      rw [List.map_map]
      exact hnd
    have hlook : lookupKey (s.utterances.map (fun p => (p.1, p.2.length))) p.1
        = some p.2.length :=
      lookupKey_nodup_mem hccnd (List.mem_map.2 ⟨p, hp, rfl⟩)
    rw [hlook] at hcond
    exact absurd hcond.1 (by simp)

/-- Witness for C3: a two-utterance speaker triggers the first scan; the next
scan with no new utterances does not trigger. -/
theorem c3_trigger_iff_and_debounce_witness :
    (scanStep ((scanStep (runAdds initState
        [(("A".toList), ("a".toList)), (("A".toList), ("b".toList))])
      (Except.error ())).1) (Except.error ())).2 = false :=
  c3_trigger_iff_and_debounce.2.2.2.2 (runAdds initState
      [(("A".toList), ("a".toList)), (("A".toList), ("b".toList))])
    (Except.error ()) (Except.error ()) (by decide) (by decide)

/-- C7 counterexample: the structured payload parses on its own, but with the
single trailing-prose character `}` appended both parse attempts fail and the
pipeline yields nothing — surrounding the payload with prose changed the
parsed result, refuting the unconditional wrapper-invariance claim. -/
theorem c7_prose_brace_cex :
    parseCompletionModule ("\x7b\"roles\":\x7b\"1\":\"advisor\"\x7d\x7d".toList)
      = some (JsonVal.jobj [("roles".toList,
          JsonVal.jobj [("1".toList, JsonVal.jstr ("advisor".toList))])]) ∧
    parseCompletionModule (("\x7b\"roles\":\x7b\"1\":\"advisor\"\x7d\x7d" ++ "\x7d").toList)
      = none :=
  ⟨rfl, rfl⟩

/-- C7 (amended): for a payload that parses, starts with `\x7b`, ends with
`\x7d` and contains no backtick, the module pipeline yields the same parsed
value for the bare payload, for the payload wrapped in ```json fences, and
for the payload surrounded by prose — the latter provided the prose contains
no braces and no backticks and the prose-wrapped text does not itself parse
as JSON.  Prose containing a brace can change or destroy the result (see the
counterexample). -/
theorem c7_wrapper_invariance (P P' : Str) (v : JsonVal) (a b : Str)
    (hP : P = lbrace :: P') (hl : P.getLast? = some rbrace)
    (hbt : btick ∉ P) (hv : jsonParse P = some v)
    (hab : btick ∉ a ∧ btick ∉ b ∧ lbrace ∉ a ∧ rbrace ∉ b)
    (hfail : jsonParse (pyStrip (a ++ P ++ b)) = none) :
    parseCompletionModule P = some v ∧
      parseCompletionModule (fenceWrap P) = some v ∧
      parseCompletionModule (a ++ P ++ b) = some v := by
  have hf3 : fence3 = btick :: "``".toList := rfl
  have hhead : P.head? = some lbrace := by rw [hP]; rfl
  refine ⟨?_, ?_, ?_⟩
  · have hnb : containsSub P fence3 = false := by
      rw [hf3]
      exact containsSub_false_of_not_mem hbt
    have hext : extractContent P = P := by
      rw [extractContent_of_no_fence hnb]
      exact pyStrip_of_ends hhead hl (by decide) (by decide)
    simp [parseCompletionModule, hext, hv]
  · have hext : extractContent (fenceWrap P) = P := extractContent_fenced hbt hP hl
    simp [parseCompletionModule, hext, hv]
  · have hnb : containsSub (a ++ P ++ b) fence3 = false := by
      rw [hf3]
      refine containsSub_false_of_not_mem ?_
      intro hmem
      rcases List.mem_append.1 hmem with h1 | h1
      · rcases List.mem_append.1 h1 with h2 | h2
        · exact hab.1 h2
        · exact hbt h2
      · exact hab.2.1 h1
    have hext : extractContent (a ++ P ++ b) = pyStrip (a ++ P ++ b) :=
      extractContent_of_no_fence hnb
    have hbs : braceSpan (a ++ P ++ b) = some P :=
      braceSpan_extract hab.2.2.1 hab.2.2.2 hP hl
    unfold parseCompletionModule
    rw [hext, hfail]
    show (match braceSpan (a ++ P ++ b) with
      | some js => jsonParse js
      | none => none) = some v
    rw [hbs]
    exact hv

/-- Witness for C7 (amended) at a concrete payload with concrete
brace-and-backtick-free prose. -/
theorem c7_wrapper_invariance_witness :
    parseCompletionModule ("\x7b\"roles\":\x7b\"1\":\"advisor\"\x7d\x7d".toList)
      = some (JsonVal.jobj [("roles".toList,
          JsonVal.jobj [("1".toList, JsonVal.jstr ("advisor".toList))])]) ∧
    parseCompletionModule (fenceWrap ("\x7b\"roles\":\x7b\"1\":\"advisor\"\x7d\x7d".toList))
      = some (JsonVal.jobj [("roles".toList,
          JsonVal.jobj [("1".toList, JsonVal.jstr ("advisor".toList))])]) ∧
    parseCompletionModule ("Here is the analysis: ".toList
        ++ "\x7b\"roles\":\x7b\"1\":\"advisor\"\x7d\x7d".toList
        ++ " as requested.".toList)
      = some (JsonVal.jobj [("roles".toList,
          JsonVal.jobj [("1".toList, JsonVal.jstr ("advisor".toList))])]) :=
  c7_wrapper_invariance ("\x7b\"roles\":\x7b\"1\":\"advisor\"\x7d\x7d".toList)
    ("\"roles\":\x7b\"1\":\"advisor\"\x7d\x7d".toList)
    (JsonVal.jobj [("roles".toList,
      JsonVal.jobj [("1".toList, JsonVal.jstr ("advisor".toList))])])
    ("Here is the analysis: ".toList) (" as requested.".toList)
    rfl rfl (by decide) rfl ⟨by decide, by decide, by decide, by decide⟩ rfl
